import Mathlib

/-!
Shallow embedding of the `go-calc` CLI (`src/cmd/calc/main.go`), a CloudSQL
custom-tier calculator, together with proofs about its core functions.

Modelling conventions:
* Go `int` is modelled as `ℤ` (unbounded); Go's truncating `/` and `%` are
  `Int.tdiv` and `Int.tmod`.
* The `float64` products `0.9 * float64(cpu) * 1024` and
  `6.5 * float64(cpu) * 1024` are modelled exactly at the level of IEEE-754
  binary64 mantissas: `roundM` performs round-to-nearest, ties-to-even, to 53
  significant bits, which is exactly what each binary64 multiplication does on
  the (positive) values arising here.
* Strings are `List Char`; `fmt.Sscanf`, `regexp` matching and `strconv.Atoi`
  are modelled directly on character lists.
-/

namespace GoCalc

/-- Fuel-driven helper for `shiftAmt`: count how many halvings bring `n`
below `2 ^ 53`.  Structural recursion on the fuel keeps it kernel-computable. -/
def sAux : ℕ → ℕ → ℕ
  | 0, _ => 0
  | f + 1, n => if n < 2 ^ 53 then 0 else sAux f (n / 2) + 1

/-- The number of binary digits of `n` beyond 53, i.e. how far the mantissa of
`n` must be shifted right to fit in 53 bits.  `n` itself is always enough
fuel. -/
def shiftAmt (n : ℕ) : ℕ := sAux n n

/-- Round a natural `n`, standing for the exact real value `n / 2 ^ 53`, to 53
significant bits with round-to-nearest, ties-to-even: the result `(m, s)`
stands for the binary64 value `m * 2 ^ s / 2 ^ 53`. -/
def roundM (n : ℕ) : ℕ × ℕ :=
  let s := shiftAmt n
  if s = 0 then (n, 0)
  else
    let q := n / 2 ^ s
    let r := n % 2 ^ s
    let half := 2 ^ (s - 1)
    if half < r ∨ (r = half ∧ q % 2 = 1) then (q + 1, s) else (q, s)

/-- The binary64 value nearest `0.9`, scaled by `2 ^ 53`
(`0.9 * 2 ^ 53 = 8106479329266892.8` rounds to this mantissa). -/
def c09num : ℕ := 8106479329266893

/-- `int(fl(num / 2 ^ 53) * 1024)`: round the exact product `num / 2 ^ 53` to
binary64, multiply by `1024` (exact in binary64), truncate toward zero. -/
def flTrunc1024 (num : ℕ) : ℕ :=
  let p := roundM num
  p.1 * 2 ^ (p.2 + 10) / 2 ^ 53

/-- Go `int(0.9 * float64(n) * 1024)` for a natural `n`: the first product
rounds `c09num * n / 2 ^ 53`, the second (`* 1024`) is exact. -/
def goTrunc09 (n : ℕ) : ℕ := flTrunc1024 (c09num * n)

/-- Go `int(6.5 * float64(n) * 1024)` for a natural `n`
(`6.5 = (13 * 2 ^ 52) / 2 ^ 53` is an exact binary64 value). -/
def goTrunc65 (n : ℕ) : ℕ := flTrunc1024 (13 * n * 2 ^ 52)

/-- Go `int(0.9 * float64(cpu) * 1024)` on `ℤ`; IEEE rounding and truncation
toward zero are both symmetric under negation. -/
def minRamGo (cpu : ℤ) : ℤ := cpu.sign * goTrunc09 cpu.natAbs

/-- Go `int(6.5 * float64(cpu) * 1024)` on `ℤ`. -/
def maxRamGo (cpu : ℤ) : ℤ := cpu.sign * goTrunc65 cpu.natAbs

/-- `validateTier` from `main.go`: vCPUs must be 1 or even in `[2, 96]`, memory
a multiple of 256 at least 3840 MB and within the 0.9–6.5 GB/vCPU band. -/
def validateTier (cpu ram : ℤ) : Bool :=
  if cpu < 1 ∨ 96 < cpu then false
  else if cpu ≠ 1 ∧ cpu.tmod 2 ≠ 0 then false
  else if ram.tmod 256 ≠ 0 ∨ ram < 3840 then false
  else decide (minRamGo cpu ≤ ram ∧ ram ≤ maxRamGo cpu)

/-- The `knownTiers` table from `main.go`, in source order. -/
def knownTiers : List (ℤ × ℤ) :=
  [(1, 3840), (2, 7680), (2, 13312), (4, 15360), (4, 26624), (6, 23040),
   (6, 39936), (8, 30720), (8, 53248), (10, 38400), (10, 66560), (12, 46080),
   (12, 79872), (16, 61440), (16, 106496), (24, 92160), (24, 159744),
   (32, 122880), (32, 212992), (48, 184320), (48, 319488), (64, 245760),
   (64, 425984), (80, 307200), (80, 532480), (96, 368640), (96, 638976)]

/-- The qualifying predicate of `findNextKnownTier`: the table entry lies
strictly above the query in the `(cpu, ram)` tuple order. -/
def aboveQ (cpu ram : ℤ) (t : ℤ × ℤ) : Bool :=
  decide (cpu < t.1 ∨ (t.1 = cpu ∧ ram < t.2))

/-- The qualifying predicate of `findPreviousKnownTier`: the table entry lies
strictly below the query in the `(cpu, ram)` tuple order. -/
def belowQ (cpu ram : ℤ) (t : ℤ × ℤ) : Bool :=
  decide (t.1 < cpu ∨ (t.1 = cpu ∧ t.2 < ram))

/-- `findNextKnownTier` from `main.go`: first table entry, in ascending table
order, strictly above the query; `none` models `found = false`. -/
def findNextKnownTier (cpu ram : ℤ) : Option (ℤ × ℤ) :=
  knownTiers.find? (aboveQ cpu ram)

/-- `findPreviousKnownTier` from `main.go`: the loop scans the table from the
last entry down, so it is the first entry of the reversed table strictly below
the query; `none` models `found = false`. -/
def findPreviousKnownTier (cpu ram : ℤ) : Option (ℤ × ℤ) :=
  knownTiers.reverse.find? (belowQ cpu ram)

/-- The vCPU fixing step of `nearestValidTier`: clamp into `[1, 96]`, then make
an odd value other than 1 even by adding one. -/
def fixCpu (cpu : ℤ) : ℤ :=
  if cpu < 1 then 1
  else if 96 < cpu then 96
  else if cpu ≠ 1 ∧ cpu.tmod 2 ≠ 0 then cpu + 1
  else cpu

/-- Go `((x + 255) / 256) * 256` (truncating division): round up to the next
multiple of 256 for nonnegative `x`. -/
def roundUp256 (x : ℤ) : ℤ := ((x + 255).tdiv 256) * 256

/-- Go `(x / 256) * 256` (truncating division): round down to a multiple of 256
for nonnegative `x`. -/
def roundDown256 (x : ℤ) : ℤ := (x.tdiv 256) * 256

/-- The `minRAM` local of `nearestValidTier`. -/
def minRAMfor (c : ℤ) : ℤ := roundUp256 (minRamGo c)

/-- The `maxRAM` local of `nearestValidTier`. -/
def maxRAMfor (c : ℤ) : ℤ := roundDown256 (maxRamGo c)

/-- `nearestValidTier` from `main.go`, step for step: fix the vCPU count, round
RAM up to a multiple of 256, floor at 3840, then clamp into
`[minRAM, maxRAM]` for the fixed vCPU count. -/
def nearestValidTier (cpu ram : ℤ) : ℤ × ℤ :=
  let c := fixCpu cpu
  let r1 := roundUp256 ram
  let r2 := if r1 < 3840 then 3840 else r1
  let r3 := if r2 < minRAMfor c then minRAMfor c else r2
  let r4 := if maxRAMfor c < r3 then maxRAMfor c else r3
  (c, r4)

/-- The strict `(vcpu, memory_mb)` tuple order on tiers. -/
def tupleLt (p q : ℤ × ℤ) : Prop := p.1 < q.1 ∨ (p.1 = q.1 ∧ p.2 < q.2)

example : goTrunc09 1 = 921 ∧ goTrunc09 2 = 1843 ∧ goTrunc09 5 = 4608 := by decide
example : goTrunc65 4 = 26624 := by decide
example : validateTier 1 3840 = true ∧ validateTier 2 3840 = true := by decide
example : validateTier 3 3840 = false ∧ validateTier 2 3841 = false := by decide
example : nearestValidTier 3 1000 = (4, 3840) := by decide
example : findNextKnownTier 1 3840 = some (2, 7680) := by decide
example : findPreviousKnownTier 4 20000 = some (4, 15360) := by decide

/-! ### The tier-identifier parser (`parseTier`) and formatter -/

/-- Numeric value of a decimal digit character. -/
def digitVal (c : Char) : ℕ := c.toNat - 48

/-- Value of a big-endian list of decimal digit characters, as computed by
`strconv.Atoi` (Go `int` modelled as unbounded, so `Atoi` never overflows). -/
def digitsToNat (ds : List Char) : ℕ := ds.foldl (fun a c => 10 * a + digitVal c) 0

/-- Literal-prefix matcher: `stripPre p s` is the remainder of `s` after the
literal `p`, or `none` if `p` is not a prefix of `s`. -/
def stripPre : List Char → List Char → Option (List Char)
  | [], s => some s
  | _ :: _, [] => none
  | p :: ps, c :: cs => if c = p then stripPre ps cs else none

/-- The literal part of the pattern `db-custom-(\d+)-(\d+)`. -/
def tierPrefix : List Char := "db-custom-".toList

/-- Try to match `db-custom-(\d+)-(\d+)` at the head of `s`: the literal
prefix, then a maximal nonempty digit run, a dash, and a second maximal
nonempty digit run (greedy `\d+` cannot cross the dash, so maximal runs are
exactly the RE2 submatches). -/
def matchAt (s : List Char) : Option (ℕ × ℕ) :=
  (stripPre tierPrefix s).bind fun r0 =>
    let p1 := r0.span Char.isDigit
    if p1.1 = [] then none
    else if p1.2.head? = some '-' then
      let p2 := p1.2.tail.span Char.isDigit
      if p2.1 = [] then none
      else some (digitsToNat p1.1, digitsToNat p2.1)
    else none

/-- `parseTier` from `main.go`: `regexp.FindStringSubmatch` with the
unanchored pattern `db-custom-(\d+)-(\d+)` returns the leftmost match, i.e.
the first position at which `matchAt` succeeds. -/
def parseTier : List Char → Option (ℕ × ℕ)
  | [] => none
  | c :: t =>
    match matchAt (c :: t) with
    | some v => some v
    | none => parseTier t

/-- Fuel-driven little-endian decimal digits of `n` (the fuel `n` itself is
always enough); structural recursion keeps it kernel-computable. -/
def digitsRevFuel : ℕ → ℕ → List ℕ
  | 0, _ => []
  | f + 1, n => if n = 0 then [] else n % 10 :: digitsRevFuel f (n / 10)

/-- Little-endian decimal digits of `n`. -/
def natDigitsRev (n : ℕ) : List ℕ := digitsRevFuel n n

/-- Decimal representation of a natural number, as printed by Go `%d` for a
nonnegative `int`. -/
def natChars (n : ℕ) : List Char :=
  if n = 0 then ['0'] else (natDigitsRev n).reverse.map Nat.digitChar

/-- The tier formatter `fmt.Sprintf("db-custom-%d-%d", c, r)`. -/
def formatTier (c r : ℕ) : List Char :=
  tierPrefix ++ natChars c ++ '-' :: natChars r

/-! ### The memory-quantity parser (`parseMem`) -/

/-- The float token scanned by the `%f` verb of `fmt.Sscanf` and converted by
`strconv.ParseFloat`: optional sign, a digit run with an optional dot and
fractional digit run (at least one digit in total), and an optional exponent
part (which must contain at least one digit, else `ParseFloat` rejects the
token and the scan errors).  Values are idealized as exact rationals; the
only multiplications `parseMem` performs are by the power of two `1024`,
which is exact in binary64 whenever the parsed value is. -/
def scanSign (s : List Char) : ℚ × List Char :=
  if s.head? = some '+' then (1, s.tail)
  else if s.head? = some '-' then (-1, s.tail)
  else (1, s)

def scanFrac (s : List Char) : List Char × List Char :=
  if s.head? = some '.' then s.tail.span Char.isDigit else ([], s)

def scanExpSign (s : List Char) : ℤ × List Char :=
  if s.head? = some '+' then (1, s.tail)
  else if s.head? = some '-' then (-1, s.tail)
  else (1, s)

def parseFloatTok (s : List Char) : Option (ℚ × List Char) :=
  let sp := scanSign s
  let p1 := sp.2.span Char.isDigit
  let pf := scanFrac p1.2
  if p1.1 = [] ∧ pf.1 = [] then none
  else
    let mant : ℚ := sp.1 * ((digitsToNat p1.1 : ℚ) + (digitsToNat pf.1 : ℚ) / 10 ^ pf.1.length)
    if pf.2.head? = some 'e' ∨ pf.2.head? = some 'E' then
      let ep := scanExpSign pf.2.tail
      let p3 := ep.2.span Char.isDigit
      if p3.1 = [] then none
      else some (mant * 10 ^ (ep.1 * (digitsToNat p3.1 : ℤ)), p3.2)
    else some (mant, pf.2)

/-- `parseMem` from `main.go`.  `fmt.Sscanf(memStr, "%f%s", &value, &unit)`
scans a float token and then a nonempty whitespace-delimited token; if either
verb fails (in particular when `%s` meets the end of the input after a bare
number), `Sscanf` reports `n < 2` with a non-nil error and `parseMem` returns
an error, modelled as `none`.  Otherwise the unit switch applies; the
`unit = ""` case of the source's switch is unreachable because `%s` never
yields an empty token. -/
def parseMem (s : List Char) : Option ℚ :=
  if s = [] then none
  else
    match parseFloatTok (s.dropWhile Char.isWhitespace) with
    | none => none
    | some (v, rest) =>
      let tok := (rest.dropWhile Char.isWhitespace).takeWhile fun c => !c.isWhitespace
      if tok = [] then none
      else if tok = ['G'] ∨ tok = ['g'] then some (v * 1024)
      else if tok = ['M'] ∨ tok = ['m'] ∨ tok = [] then some v
      else none

/-! ### The bump-memory derivation from `main` -/

/-- Relation between a tier's memory and the 6.5 GB/vCPU maximum, as reported
by the `-bump-mem` branch of `main`. -/
inductive BumpRel where
  | Bumped
  | AlreadyMax
  | AlreadyExceedsMax
deriving DecidableEq

/-- Integer value of the binary64 nearest to the natural number `n`
(`float64(n)` in Go; the value is `(roundM n).1 * 2 ^ (roundM n).2`). -/
def valM (n : ℕ) : ℕ := (roundM n).1 * 2 ^ (roundM n).2

/-- Go `int(float64(c) * 6.5 * 1024)`: convert `c` to binary64, multiply by
`6.5 = 13 / 2` (one rounding of the mantissa `13 * m`), then by `1024`
(exact).  The result is the integer `m1 * 2 ^ (t + s0 + 9)`, so the final
truncation is exact. -/
def goMul6656 (c : ℕ) : ℕ :=
  let p0 := roundM c
  let p1 := roundM (13 * p0.1)
  p1.1 * 2 ^ (p1.2 + p0.2 + 9)

/-- The `-bump-mem` computation of `main`: hold the vCPU count, compute the
maximum memory at 6.5 GB/vCPU rounded down to a multiple of 256 and floored
at 3840, and classify the relation to the current memory. -/
def bumpMemoryToMax (c r : ℕ) : ℕ × BumpRel :=
  let a := goMul6656 c
  let b := (a / 256) * 256
  let v := valM b
  let v2 := if v < 3840 then 3840 else v
  (v2, if v2 = r then .AlreadyMax else if v2 < r then .AlreadyExceedsMax else .Bumped)

example : parseTier "db-custom-1-3840".toList = some (1, 3840) := by decide
example : parseTier "xdb-custom-1-3840y".toList = some (1, 3840) := by decide
example : parseTier "db-custom--4-1".toList = none := by decide
example : formatTier 4 15360 = "db-custom-4-15360".toList := by decide
example : parseMem "6144".toList = none := by decide
example : parseMem "6144X".toList = none := by decide
example : parseMem "".toList = none := by decide
example : (parseMem "6144M".toList).isSome = true := by decide
example : (parseMem "6.5G".toList).isSome = true := by decide
example : bumpMemoryToMax 4 3840 = (26624, .Bumped) := by decide

/-! ### Arithmetic facts about the rounding helpers -/

lemma roundUp256_ge {x : ℤ} (hx : 0 ≤ x) : x ≤ roundUp256 x := by
  unfold roundUp256
  rw [Int.tdiv_eq_ediv (by omega) (by norm_num)]
  omega

lemma roundDown256_le {x : ℤ} (hx : 0 ≤ x) : roundDown256 x ≤ x := by
  unfold roundDown256
  rw [Int.tdiv_eq_ediv (by omega) (by norm_num)]
  omega

lemma dvd_roundUp256 (x : ℤ) : (256 : ℤ) ∣ roundUp256 x :=
  dvd_mul_left 256 _

lemma dvd_roundDown256 (x : ℤ) : (256 : ℤ) ∣ roundDown256 x :=
  dvd_mul_left 256 _

lemma roundUp256_of_dvd {x : ℤ} (h : (256 : ℤ) ∣ x) (hx : 0 ≤ x) :
    roundUp256 x = x := by
  obtain ⟨k, rfl⟩ := h
  unfold roundUp256
  rw [Int.tdiv_eq_ediv (by omega) (by norm_num)]
  omega

lemma minRamGo_nonneg {c : ℤ} (hc : 1 ≤ c) : 0 ≤ minRamGo c := by
  unfold minRamGo
  rw [Int.sign_eq_one_of_pos (by omega), one_mul]
  exact Int.ofNat_nonneg _

lemma maxRamGo_nonneg {c : ℤ} (hc : 1 ≤ c) : 0 ≤ maxRamGo c := by
  unfold maxRamGo
  rw [Int.sign_eq_one_of_pos (by omega), one_mul]
  exact Int.ofNat_nonneg _

/-- On the vCPU range the validator guards let through, the exactly modelled
binary64 computations agree with the ideal truncated products
(`trunc (0.9 * c * 1024) = (4608 * c).tdiv 5` and
`trunc (6.5 * c * 1024) = (13312 * c).tdiv 2`), and the rounded clamping bounds
of `nearestValidTier` are well ordered and above the 3840 MB floor. -/
lemma cpuFacts (c : ℤ) (h1 : 1 ≤ c) (h2 : c ≤ 96) :
    minRamGo c = (4608 * c).tdiv 5 ∧ maxRamGo c = (13312 * c).tdiv 2 ∧
    minRAMfor c ≤ maxRAMfor c ∧ 3840 ≤ maxRAMfor c := by
  interval_cases c <;> decide

lemma fixCpu_bounds (cpu : ℤ) :
    1 ≤ fixCpu cpu ∧ fixCpu cpu ≤ 96 ∧
    (fixCpu cpu = 1 ∨ (fixCpu cpu).tmod 2 = 0) := by
  unfold fixCpu
  split_ifs with h1 h2 h3
  · exact ⟨le_refl 1, by norm_num, Or.inl rfl⟩
  · exact ⟨by norm_num, le_refl 96, Or.inr (by decide)⟩
  · obtain ⟨hne, hodd⟩ := h3
    push_neg at h1 h2
    rw [Int.tmod_eq_emod (by omega) (by omega)] at hodd
    refine ⟨by omega, by omega, Or.inr ?_⟩
    rw [Int.tmod_eq_emod (by omega) (by omega)]
    omega
  · push_neg at h1 h2
    rcases Decidable.em (cpu = 1) with h | h
    · exact ⟨by omega, by omega, Or.inl h⟩
    · push_neg at h3
      exact ⟨by omega, by omega, Or.inr (h3 h)⟩

lemma fixCpu_fixed {c : ℤ} (h1 : 1 ≤ c) (h2 : c ≤ 96)
    (hp : c = 1 ∨ c.tmod 2 = 0) : fixCpu c = c := by
  unfold fixCpu
  rw [if_neg (by omega), if_neg (by omega), if_neg ?_]
  rintro ⟨hne, hmod⟩
  rcases hp with rfl | hp
  · exact hne rfl
  · exact hmod hp

/-- Structure of a `nearestValidTier` result: the vCPU component is `fixCpu`
of the input, and the RAM component is a multiple of 256, at least 3840, and
inside the rounded clamping band of the fixed vCPU count. -/
lemma nvt_eq (cpu ram : ℤ) :
    ∃ r, nearestValidTier cpu ram = (fixCpu cpu, r) ∧ (256 : ℤ) ∣ r ∧
      3840 ≤ r ∧ minRAMfor (fixCpu cpu) ≤ r ∧ r ≤ maxRAMfor (fixCpu cpu) := by
  obtain ⟨hc1, hc2, -⟩ := fixCpu_bounds cpu
  obtain ⟨-, -, hmm, hm38⟩ := cpuFacts (fixCpu cpu) hc1 hc2
  have hdu : (256 : ℤ) ∣ roundUp256 ram := dvd_roundUp256 ram
  have hdmin : (256 : ℤ) ∣ minRAMfor (fixCpu cpu) := dvd_roundUp256 _
  have hdmax : (256 : ℤ) ∣ maxRAMfor (fixCpu cpu) := dvd_roundDown256 _
  simp only [nearestValidTier]
  refine ⟨_, rfl, ?_⟩
  split_ifs <;> refine ⟨by omega, by omega, by omega, by omega⟩

/-- C1: `validateTier` accepts exactly the pairs satisfying the six rules of
the Constraint Validator, with the 0.9 GB/vCPU and 6.5 GB/vCPU bounds computed
by truncation toward zero; in particular `IsValid(1, 3840)` and
`IsValid(2, 3840)` are both true. -/
theorem validateTier_iff :
    (∀ cpu ram : ℤ, validateTier cpu ram = true ↔
      (1 ≤ cpu ∧ cpu ≤ 96 ∧ (cpu = 1 ∨ 2 ∣ cpu) ∧ (256 : ℤ) ∣ ram ∧
       3840 ≤ ram ∧ (4608 * cpu).tdiv 5 ≤ ram ∧ ram ≤ (13312 * cpu).tdiv 2)) ∧
    validateTier 1 3840 = true ∧ validateTier 2 3840 = true := by
  refine ⟨?_, by decide, by decide⟩
  intro cpu ram
  unfold validateTier
  split_ifs with g1 g2 g3
  · simp only [false_iff]
    rintro ⟨h1, h2, -⟩
    omega
  · simp only [false_iff]
    rintro ⟨h1, h2, hp, -⟩
    obtain ⟨hne, hmod⟩ := g2
    rcases hp with rfl | hp
    · exact hne rfl
    · exact hmod (Int.tmod_eq_zero_of_dvd hp)
  · simp only [false_iff]
    rintro ⟨h1, h2, hp, hd, h38, -⟩
    rcases g3 with g3 | g3
    · exact g3 (Int.tmod_eq_zero_of_dvd hd)
    · omega
  · push_neg at g1 g2 g3
    obtain ⟨hm09, hm65, -, -⟩ := cpuFacts cpu (by omega) (by omega)
    simp only [decide_eq_true_eq, hm09, hm65]
    constructor
    · rintro ⟨ha, hb⟩
      refine ⟨by omega, by omega, ?_, Int.dvd_of_tmod_eq_zero g3.1, g3.2, ha, hb⟩
      rcases Decidable.em (cpu = 1) with h | h
      · exact Or.inl h
      · exact Or.inr (Int.dvd_of_tmod_eq_zero (g2 h))
    · rintro ⟨-, -, -, -, -, ha, hb⟩
      exact ⟨ha, hb⟩

/-- Witness for C1: the characterization applied at the concrete pair
`(16, 61440)`, discharging the six validity rules by computation. -/
theorem validateTier_iff_witness : validateTier 16 61440 = true :=
  (validateTier_iff.1 16 61440).mpr (by decide)

/-- Sufficient conditions under which `validateTier` returns `true`. -/
lemma validateTier_true_of {c r : ℤ} (hc1 : 1 ≤ c) (hc2 : c ≤ 96)
    (hpar : c = 1 ∨ c.tmod 2 = 0) (hdvd : (256 : ℤ) ∣ r) (h38 : 3840 ≤ r)
    (hmin : minRamGo c ≤ r) (hmax : r ≤ maxRamGo c) :
    validateTier c r = true := by
  unfold validateTier
  rw [if_neg (by omega), if_neg ?_, if_neg ?_]
  · exact decide_eq_true ⟨hmin, hmax⟩
  · rintro (hg | hg)
    · exact hg (Int.tmod_eq_zero_of_dvd hdvd)
    · omega
  · rintro ⟨hne, hmod⟩
    rcases hpar with h | h
    · exact hne h
    · exact hmod h

/-- C2: every `nearestValidTier` result passes `validateTier`; its vCPU
component is 1 or an even number in `[2, 96]`, and at the boundary inputs
95, 96, 97 the adjusted vCPU count is exactly 96. -/
theorem nearestValidTier_valid :
    (∀ cpu ram : ℤ,
      validateTier (nearestValidTier cpu ram).1 (nearestValidTier cpu ram).2 = true ∧
      ((nearestValidTier cpu ram).1 = 1 ∨
        (2 ≤ (nearestValidTier cpu ram).1 ∧ (nearestValidTier cpu ram).1 ≤ 96 ∧
         2 ∣ (nearestValidTier cpu ram).1))) ∧
    (∀ ram : ℤ, (nearestValidTier 95 ram).1 = 96 ∧
      (nearestValidTier 96 ram).1 = 96 ∧ (nearestValidTier 97 ram).1 = 96) := by
  constructor
  · intro cpu ram
    obtain ⟨r, heq, hdvd, h38, hmin', hmax'⟩ := nvt_eq cpu ram
    obtain ⟨hc1, hc2, hpar⟩ := fixCpu_bounds cpu
    rw [heq]
    have hmin : minRamGo (fixCpu cpu) ≤ r :=
      le_trans (roundUp256_ge (minRamGo_nonneg hc1)) hmin'
    have hmax : r ≤ maxRamGo (fixCpu cpu) :=
      le_trans hmax' (roundDown256_le (maxRamGo_nonneg hc1))
    constructor
    · show validateTier (fixCpu cpu) r = true
      exact validateTier_true_of hc1 hc2 hpar hdvd h38 hmin hmax
    · show fixCpu cpu = 1 ∨ (2 ≤ fixCpu cpu ∧ fixCpu cpu ≤ 96 ∧ 2 ∣ fixCpu cpu)
      rcases hpar with h | h
      · exact Or.inl h
      · have h2 : 2 ∣ fixCpu cpu := Int.dvd_of_tmod_eq_zero h
        exact Or.inr ⟨by omega, hc2, h2⟩
  · intro ram
    obtain ⟨r95, h95, -⟩ := nvt_eq 95 ram
    obtain ⟨r96, h96, -⟩ := nvt_eq 96 ram
    obtain ⟨r97, h97, -⟩ := nvt_eq 97 ram
    rw [h95, h96, h97]
    refine ⟨show fixCpu 95 = 96 by decide, show fixCpu 96 = 96 by decide,
      show fixCpu 97 = 96 by decide⟩

/-- C5: `nearestValidTier` is idempotent. -/
theorem nearestValidTier_idempotent (v r : ℤ) :
    nearestValidTier (nearestValidTier v r).1 (nearestValidTier v r).2 =
      nearestValidTier v r := by
  obtain ⟨r4, heq, hdvd, h38, hmin, hmax⟩ := nvt_eq v r
  obtain ⟨hc1, hc2, hpar⟩ := fixCpu_bounds v
  obtain ⟨-, -, hmm, -⟩ := cpuFacts (fixCpu v) hc1 hc2
  rw [heq]
  have hfix : fixCpu (fixCpu v) = fixCpu v := fixCpu_fixed hc1 hc2 hpar
  have hr1 : roundUp256 r4 = r4 := roundUp256_of_dvd hdvd (by omega)
  simp only [nearestValidTier, hfix, hr1, Prod.mk.injEq]
  rw [if_neg (by omega), if_neg (by omega), if_neg (by omega)]
  exact ⟨trivial, rfl⟩

/-- C8: the known-tier table has exactly 27 entries, is strictly sorted under
the `(vcpu, memory_mb)` tuple order, and every entry passes `validateTier`. -/
theorem knownTiers_invariants :
    knownTiers.length = 27 ∧
    knownTiers.Pairwise (fun a b => a.1 < b.1 ∨ (a.1 = b.1 ∧ a.2 < b.2)) ∧
    (∀ t ∈ knownTiers, validateTier t.1 t.2 = true) := by decide

/-- Witness for C8: the table invariant applied at the last table entry
`(96, 638976)`, whose membership is checked by computation. -/
theorem knownTiers_invariants_witness : validateTier 96 638976 = true :=
  knownTiers_invariants.2.2 (96, 638976) (by decide)

/-- C9: when both neighbor searches succeed, their results bracket the query
under the tuple order. -/
theorem findTiers_bracket (cpu ram : ℤ) (b a : ℤ × ℤ)
    (hb : findPreviousKnownTier cpu ram = some b)
    (ha : findNextKnownTier cpu ram = some a) :
    tupleLt b (cpu, ram) ∧ tupleLt (cpu, ram) a := by
  unfold findPreviousKnownTier at hb
  unfold findNextKnownTier at ha
  have hpb := List.find?_some hb
  have hpa := List.find?_some ha
  unfold belowQ at hpb
  unfold aboveQ at hpa
  simp only [decide_eq_true_eq] at hpb hpa
  constructor
  · exact hpb
  · rcases hpa with h | ⟨h1, h2⟩
    · exact Or.inl h
    · exact Or.inr ⟨h1.symm, h2⟩

/-- Witness for C9 at the concrete query `(4, 20000)` whose bracketing
neighbors in the table are `(4, 15360)` and `(4, 26624)`. -/
theorem findTiers_bracket_witness :
    tupleLt ((4 : ℤ), (15360 : ℤ)) (4, 20000) ∧
    tupleLt ((4 : ℤ), (20000 : ℤ)) (4, 26624) :=
  findTiers_bracket 4 20000 (4, 15360) (4, 26624) (by decide) (by decide)

/-- `find?` on a reversed list: the last qualifying entry of the original
list, characterized by having no qualifying entry after it. -/
lemma find?_reverse_eq_some {α : Type} (p : α → Bool) (l : List α) (b : α) :
    l.reverse.find? p = some b ↔
    (p b = true ∧ ∃ l1 l2, l = l1 ++ b :: l2 ∧ ∀ u ∈ l2, p u = false) := by
  rw [List.find?_eq_some]
  constructor
  · rintro ⟨hp, as, bs, heq, hall⟩
    refine ⟨hp, bs.reverse, as.reverse, ?_, fun u hu => ?_⟩
    · rw [← List.reverse_reverse l, heq]
      simp [List.reverse_append]
    · have := hall u (List.mem_reverse.mp hu)
      simpa using this
  · rintro ⟨hp, l1, l2, heq, hall⟩
    refine ⟨hp, l2.reverse, l1.reverse, ?_, fun u hu => ?_⟩
    · rw [heq]
      simp [List.reverse_append]
    · have := hall u (List.mem_reverse.mp hu)
      simpa using this

/-- C4: `findNextKnownTier` returns the first table entry strictly above the
query in ascending order, `findPreviousKnownTier` the last entry strictly
below it (no later entry qualifies), each returns `none` exactly when no entry
qualifies, and `findNextKnownTier 1 3840 = (2, 7680, found)`. -/
theorem findTiers_scan :
    (∀ cpu ram t, findNextKnownTier cpu ram = some t ↔
      ((cpu < t.1 ∨ (t.1 = cpu ∧ ram < t.2)) ∧
        ∃ l1 l2, knownTiers = l1 ++ t :: l2 ∧
          ∀ u ∈ l1, ¬(cpu < u.1 ∨ (u.1 = cpu ∧ ram < u.2)))) ∧
    (∀ cpu ram t, findPreviousKnownTier cpu ram = some t ↔
      ((t.1 < cpu ∨ (t.1 = cpu ∧ t.2 < ram)) ∧
        ∃ l1 l2, knownTiers = l1 ++ t :: l2 ∧
          ∀ u ∈ l2, ¬(u.1 < cpu ∨ (u.1 = cpu ∧ u.2 < ram)))) ∧
    (∀ cpu ram, findNextKnownTier cpu ram = none ↔
      ∀ t ∈ knownTiers, ¬(cpu < t.1 ∨ (t.1 = cpu ∧ ram < t.2))) ∧
    (∀ cpu ram, findPreviousKnownTier cpu ram = none ↔
      ∀ t ∈ knownTiers, ¬(t.1 < cpu ∨ (t.1 = cpu ∧ t.2 < ram))) ∧
    findNextKnownTier 1 3840 = some (2, 7680) := by
  refine ⟨?_, ?_, ?_, ?_, by decide⟩
  · intro cpu ram t
    rw [findNextKnownTier, List.find?_eq_some]
    constructor
    · rintro ⟨hp, as, bs, heq, hall⟩
      exact ⟨by simpa [aboveQ] using hp, as, bs, heq,
        fun u hu => by simpa [aboveQ, Decidable.imp_iff_not_or] using hall u hu⟩
    · rintro ⟨hp, as, bs, heq, hall⟩
      exact ⟨by simpa [aboveQ] using hp, as, bs, heq,
        fun u hu => by simpa [aboveQ, Decidable.imp_iff_not_or] using hall u hu⟩
  · intro cpu ram t
    rw [findPreviousKnownTier, find?_reverse_eq_some]
    constructor
    · rintro ⟨hp, as, bs, heq, hall⟩
      exact ⟨by simpa [belowQ] using hp, as, bs, heq,
        fun u hu => by simpa [belowQ, Decidable.imp_iff_not_or] using hall u hu⟩
    · rintro ⟨hp, as, bs, heq, hall⟩
      exact ⟨by simpa [belowQ] using hp, as, bs, heq,
        fun u hu => by simpa [belowQ, Decidable.imp_iff_not_or] using hall u hu⟩
  · intro cpu ram
    rw [findNextKnownTier, List.find?_eq_none]
    constructor
    · intro h t ht
      simpa [aboveQ] using h t ht
    · intro h t ht
      simpa [aboveQ] using h t ht
  · intro cpu ram
    rw [findPreviousKnownTier, List.find?_eq_none]
    constructor
    · intro h t ht
      simpa [belowQ] using h t (List.mem_reverse.mpr ht)
    · intro h t ht
      simpa [belowQ] using h t (List.mem_reverse.mp ht)

/-- Witness for C4: the characterization applied at the concrete query
`(1, 3840)`, recovering the spec's example `FindNextAbove(1, 3840) =
(2, 7680, found)` together with its witness split of the table. -/
theorem findTiers_scan_witness :
    findNextKnownTier 1 3840 = some (2, 7680) ∧
    ((1 : ℤ) < 2 ∨ ((2 : ℤ) = 1 ∧ (3840 : ℤ) < 7680)) :=
  ⟨findTiers_scan.2.2.2.2, Or.inl (by norm_num)⟩

/-! ### Round-trip of the tier identifier (format then parse) -/

lemma digitsRevFuel_eq (f : ℕ) : ∀ n, n ≤ f → digitsRevFuel f n = Nat.digits 10 n := by
  induction f with
  | zero =>
    intro n hn
    interval_cases n
    simp [digitsRevFuel]
  | succ f ih =>
    intro n hn
    simp only [digitsRevFuel]
    split_ifs with h0
    · subst h0
      simp
    · rw [ih (n / 10) (by omega)]
      exact (Nat.digits_def' (by norm_num) (by omega)).symm

lemma natDigitsRev_eq (n : ℕ) : natDigitsRev n = Nat.digits 10 n :=
  digitsRevFuel_eq n n le_rfl

lemma digitChar_isDigit {d : ℕ} (hd : d < 10) : (Nat.digitChar d).isDigit = true := by
  interval_cases d <;> decide

lemma digitVal_digitChar {d : ℕ} (hd : d < 10) : digitVal (Nat.digitChar d) = d := by
  interval_cases d <;> decide

lemma natChars_digits (n : ℕ) : ∀ c ∈ natChars n, c.isDigit = true := by
  intro c hc
  unfold natChars at hc
  split_ifs at hc with h0
  · simp only [List.mem_singleton] at hc
    subst hc
    decide
  · rw [natDigitsRev_eq] at hc
    simp only [List.mem_map, List.mem_reverse] at hc
    obtain ⟨d, hd, rfl⟩ := hc
    exact digitChar_isDigit (Nat.digits_lt_base (by norm_num) hd)

lemma natChars_ne_nil (n : ℕ) : natChars n ≠ [] := by
  unfold natChars
  split_ifs with h0
  · simp
  · rw [natDigitsRev_eq]
    simp only [ne_eq, List.map_eq_nil_iff, List.reverse_eq_nil_iff]
    exact Nat.digits_ne_nil_iff_ne_zero.mpr h0

lemma foldl_digitChars (l : List ℕ) (hl : ∀ d ∈ l, d < 10) :
    ∀ a : ℕ, List.foldl (fun x c => 10 * x + digitVal c) a (l.map Nat.digitChar) =
      a * 10 ^ l.length + Nat.ofDigits 10 l.reverse := by
  induction l with
  | nil =>
    intro a
    simp [Nat.ofDigits]
  | cons d t ih =>
    intro a
    simp only [List.map_cons, List.foldl_cons]
    rw [digitVal_digitChar (hl d (by simp))]
    rw [ih (fun x hx => hl x (by simp [hx])) (10 * a + d)]
    rw [List.reverse_cons, Nat.ofDigits_append]
    simp only [List.length_cons, List.length_reverse, Nat.ofDigits_singleton]
    ring

lemma digitsToNat_natChars (n : ℕ) : digitsToNat (natChars n) = n := by
  unfold natChars
  split_ifs with h0
  · subst h0
    decide
  · unfold digitsToNat
    rw [natDigitsRev_eq]
    rw [foldl_digitChars _ (fun d hd => Nat.digits_lt_base (by norm_num)
      (List.mem_reverse.mp hd)) 0]
    simp [Nat.ofDigits_digits]

lemma stripPre_append (p r : List Char) : stripPre p (p ++ r) = some r := by
  induction p with
  | nil => rfl
  | cons c t ih => simp [stripPre, ih]

lemma span_digits_append (ds rest : List Char) (h1 : ∀ c ∈ ds, c.isDigit = true)
    (h2 : ∀ x, rest.head? = some x → x.isDigit = false) :
    (ds ++ rest).span Char.isDigit = (ds, rest) := by
  rw [List.span_eq_take_drop, List.takeWhile_append_of_pos h1,
    List.dropWhile_append_of_pos h1]
  cases rest with
  | nil => simp
  | cons x t =>
    have hx := h2 x rfl
    rw [List.takeWhile_cons_of_neg (by simp [hx]),
      List.dropWhile_cons_of_neg (by simp [hx])]
    simp

lemma span_digits_all (ds : List Char) (h1 : ∀ c ∈ ds, c.isDigit = true) :
    ds.span Char.isDigit = (ds, []) := by
  have := span_digits_append ds [] h1 (fun x hx => by simp at hx)
  simpa using this

lemma matchAt_format (c r : ℕ) : matchAt (formatTier c r) = some (c, r) := by
  have hsp := span_digits_append (natChars c) ('-' :: natChars r) (natChars_digits c)
    (fun x hx => by
      simp only [List.head?_cons, Option.some.injEq] at hx
      subst hx
      decide)
  simp only [matchAt, formatTier, List.append_assoc, stripPre_append, Option.some_bind,
    hsp, List.head?_cons, List.tail_cons, span_digits_all (natChars r) (natChars_digits r)]
  rw [if_neg (natChars_ne_nil c)]
  simp only [if_true]
  rw [if_neg (natChars_ne_nil r), digitsToNat_natChars, digitsToNat_natChars]

/-- C6: parse after format round-trips: for every pair of naturals, parsing
the canonical formatted tier string returns exactly that pair. -/
theorem parse_format_roundtrip (c r : ℕ) : parseTier (formatTier c r) = some (c, r) := by
  have h := matchAt_format c r
  have hshape : formatTier c r =
      'd' :: (("b-custom-".toList ++ natChars c) ++ '-' :: natChars r) := rfl
  rw [hshape] at h ⊢
  simp only [parseTier]
  rw [h]

/-! ### Unanchored matching of the tier pattern -/

lemma parseTier_cons_eq (s : List Char) (hs : s ≠ []) :
    parseTier s = match matchAt s with
      | some v => some v
      | none => parseTier s.tail := by
  cases s with
  | nil => exact absurd rfl hs
  | cons c t => rfl

lemma matchAt_isSome (ds1 ds2 rest : List Char) (h1 : ds1 ≠ []) (h2 : ds2 ≠ [])
    (hd1 : ∀ c ∈ ds1, c.isDigit = true) (hd2 : ∀ c ∈ ds2, c.isDigit = true) :
    (matchAt (tierPrefix ++ (ds1 ++ '-' :: (ds2 ++ rest)))).isSome = true := by
  have hsp := span_digits_append ds1 ('-' :: (ds2 ++ rest)) hd1
    (fun x hx => by
      simp only [List.head?_cons, Option.some.injEq] at hx
      subst hx
      decide)
  obtain ⟨d, t, rfl⟩ : ∃ d t, ds2 = d :: t := by
    cases ds2 with
    | nil => exact absurd rfl h2
    | cons d t => exact ⟨d, t, rfl⟩
  simp only [matchAt, stripPre_append, Option.some_bind, hsp, List.head?_cons,
    List.tail_cons]
  rw [if_neg h1]
  simp only [if_true]
  rw [List.cons_append, List.span_eq_take_drop,
    List.takeWhile_cons_of_pos (hd2 d (by simp))]
  rw [if_neg (by simp)]
  rfl

/-- C10: `parseTier` is not anchored: any string containing
`db-custom-<digits>-<digits>` as a substring parses successfully, so leading
or trailing junk is accepted rather than rejected; concretely,
`"xdb-custom-1-3840y"` parses to `(1, 3840)`, and with two occurrences the
first (leftmost) one is returned. -/
theorem parseTier_unanchored :
    (∀ a b ds1 ds2 : List Char, ds1 ≠ [] → ds2 ≠ [] →
      (∀ c ∈ ds1, c.isDigit = true) → (∀ c ∈ ds2, c.isDigit = true) →
      (parseTier (a ++ (tierPrefix ++ (ds1 ++ '-' :: (ds2 ++ b))))).isSome = true) ∧
    parseTier "xdb-custom-1-3840y".toList = some (1, 3840) ∧
    parseTier "db-custom-1-3840 then db-custom-2-7680".toList = some (1, 3840) := by
  refine ⟨?_, by decide, by decide⟩
  intro a b ds1 ds2 h1 h2 hd1 hd2
  induction a with
  | nil =>
    rw [List.nil_append]
    have h := matchAt_isSome ds1 ds2 b h1 h2 hd1 hd2
    have hne : tierPrefix ++ (ds1 ++ '-' :: (ds2 ++ b)) ≠ [] := by
      have : tierPrefix ≠ [] := by decide
      simp [this]
    rw [parseTier_cons_eq _ hne]
    cases hm : matchAt (tierPrefix ++ (ds1 ++ '-' :: (ds2 ++ b))) with
    | some v => rfl
    | none =>
      rw [hm] at h
      simp at h
  | cons x a ih =>
    rw [List.cons_append]
    simp only [parseTier]
    cases hm : matchAt (x :: (a ++ (tierPrefix ++ (ds1 ++ '-' :: (ds2 ++ b))))) with
    | some v => rfl
    | none => exact ih

/-- Witness for C10: the unanchored-match theorem applied at the concrete
decomposition `"x" ++ "db-custom-" ++ "1" ++ "-" ++ "3840" ++ "y"`. -/
theorem parseTier_unanchored_witness :
    (parseTier (['x'] ++ (tierPrefix ++ (['1'] ++ '-' :: ("3840".toList ++ ['y']))))).isSome
      = true :=
  parseTier_unanchored.1 ['x'] ['y'] ['1'] "3840".toList (by decide) (by decide)
    (by decide) (by decide)

/-! ### Behavior of the memory-quantity parser -/

lemma isDigit_not_special {c : Char} (h : c.isDigit = true) :
    c ≠ '+' ∧ c ≠ '-' ∧ c ≠ '.' ∧ c ≠ 'e' ∧ c ≠ 'E' ∧ c.isWhitespace = false := by
  refine ⟨?_, ?_, ?_, ?_, ?_, ?_⟩
  · rintro rfl
    exact absurd h (by decide)
  · rintro rfl
    exact absurd h (by decide)
  · rintro rfl
    exact absurd h (by decide)
  · rintro rfl
    exact absurd h (by decide)
  · rintro rfl
    exact absurd h (by decide)
  · by_contra hcon
    rw [Bool.not_eq_false] at hcon
    simp only [Char.isWhitespace, Bool.or_eq_true, decide_eq_true_eq] at hcon
    rcases hcon with ((rfl | rfl) | rfl) | rfl <;> exact absurd h (by decide)

lemma dropWhile_ws_digit (d : Char) (t : List Char) (hd : d.isDigit = true) :
    (d :: t).dropWhile Char.isWhitespace = d :: t :=
  List.dropWhile_cons_of_neg (by simp [(isDigit_not_special hd).2.2.2.2.2])

/-- Scanning `%f` on a digit run followed by a rest that begins with neither a
digit, a dot, nor an exponent letter consumes exactly the digits. -/
lemma parseFloatTok_digits (ds rest : List Char) (h1 : ds ≠ [])
    (hd : ∀ c ∈ ds, c.isDigit = true)
    (hr : ∀ x, rest.head? = some x → x.isDigit = false ∧ x ≠ '.' ∧ x ≠ 'e' ∧ x ≠ 'E') :
    parseFloatTok (ds ++ rest) = some ((digitsToNat ds : ℚ), rest) := by
  obtain ⟨d, t, rfl⟩ : ∃ d t, ds = d :: t := by
    cases ds with
    | nil => exact absurd rfl h1
    | cons d t => exact ⟨d, t, rfl⟩
  have hdd := isDigit_not_special (hd d (by simp))
  have hsp := span_digits_append (d :: t) rest hd (fun x hx => (hr x hx).1)
  rw [List.cons_append] at hsp
  have hdot : rest.head? ≠ some '.' := by
    cases hx : rest.head? with
    | none => simp
    | some x =>
      intro he
      exact (hr x hx).2.1 (Option.some.inj he)
  have hexe : rest.head? ≠ some 'e' := by
    cases hx : rest.head? with
    | none => simp
    | some x =>
      intro he
      exact (hr x hx).2.2.1 (Option.some.inj he)
  have hexE : rest.head? ≠ some 'E' := by
    cases hx : rest.head? with
    | none => simp
    | some x =>
      intro he
      exact (hr x hx).2.2.2 (Option.some.inj he)
  have hsg : scanSign (d :: (t ++ rest)) = (1, d :: (t ++ rest)) := by
    simp [scanSign, hdd.1, hdd.2.1]
  have hfr : scanFrac rest = ([], rest) := by
    simp [scanFrac, hdot]
  simp only [parseFloatTok, List.cons_append, hsg, hsp, hfr]
  rw [if_neg (by simp), if_neg (not_or.mpr ⟨hexe, hexE⟩)]
  norm_num [show digitsToNat [] = 0 from rfl]

lemma parseMem_bare_digits (ds : List Char) (h1 : ds ≠ [])
    (hd : ∀ c ∈ ds, c.isDigit = true) : parseMem ds = none := by
  obtain ⟨d, t, rfl⟩ : ∃ d t, ds = d :: t := by
    cases ds with
    | nil => exact absurd rfl h1
    | cons d t => exact ⟨d, t, rfl⟩
  have hpf := parseFloatTok_digits (d :: t) [] h1 hd (fun x hx => by simp at hx)
  rw [List.append_nil] at hpf
  simp only [parseMem]
  rw [if_neg h1, dropWhile_ws_digit d t (hd d (by simp)), hpf]
  rfl

lemma parseMem_M (ds : List Char) (u : Char) (h1 : ds ≠ [])
    (hd : ∀ c ∈ ds, c.isDigit = true) (hu : u = 'M' ∨ u = 'm') :
    parseMem (ds ++ [u]) = some (digitsToNat ds : ℚ) := by
  obtain ⟨d, t, rfl⟩ : ∃ d t, ds = d :: t := by
    cases ds with
    | nil => exact absurd rfl h1
    | cons d t => exact ⟨d, t, rfl⟩
  have hpf := parseFloatTok_digits (d :: t) [u] h1 hd
    (fun x hx => by
      simp only [List.head?_cons, Option.some.injEq] at hx
      subst hx
      rcases hu with rfl | rfl <;> exact ⟨by decide, by decide, by decide, by decide⟩)
  rw [List.cons_append] at hpf
  simp only [parseMem, List.cons_append]
  rw [if_neg (by simp), dropWhile_ws_digit d (t ++ [u]) (hd d (by simp)), hpf]
  rcases hu with rfl | rfl <;> rfl

lemma parseMem_G (ds : List Char) (u : Char) (h1 : ds ≠ [])
    (hd : ∀ c ∈ ds, c.isDigit = true) (hu : u = 'G' ∨ u = 'g') :
    parseMem (ds ++ [u]) = some ((digitsToNat ds : ℚ) * 1024) := by
  obtain ⟨d, t, rfl⟩ : ∃ d t, ds = d :: t := by
    cases ds with
    | nil => exact absurd rfl h1
    | cons d t => exact ⟨d, t, rfl⟩
  have hpf := parseFloatTok_digits (d :: t) [u] h1 hd
    (fun x hx => by
      simp only [List.head?_cons, Option.some.injEq] at hx
      subst hx
      rcases hu with rfl | rfl <;> exact ⟨by decide, by decide, by decide, by decide⟩)
  rw [List.cons_append] at hpf
  simp only [parseMem, List.cons_append]
  rw [if_neg (by simp), dropWhile_ws_digit d (t ++ [u]) (hd d (by simp)), hpf]
  rcases hu with rfl | rfl <;> rfl

lemma parseMem_junk (ds : List Char) (u : Char) (h1 : ds ≠ [])
    (hd : ∀ c ∈ ds, c.isDigit = true)
    (hu1 : u.isDigit = false) (hu2 : u ≠ '.') (hu3 : u ≠ 'e') (hu4 : u ≠ 'E')
    (hu5 : u.isWhitespace = false)
    (hu6 : u ≠ 'M') (hu7 : u ≠ 'm') (hu8 : u ≠ 'G') (hu9 : u ≠ 'g') :
    parseMem (ds ++ [u]) = none := by
  obtain ⟨d, t, rfl⟩ : ∃ d t, ds = d :: t := by
    cases ds with
    | nil => exact absurd rfl h1
    | cons d t => exact ⟨d, t, rfl⟩
  have hpf := parseFloatTok_digits (d :: t) [u] h1 hd
    (fun x hx => by
      simp only [List.head?_cons, Option.some.injEq] at hx
      subst hx
      exact ⟨hu1, hu2, hu3, hu4⟩)
  rw [List.cons_append] at hpf
  simp only [parseMem, List.cons_append]
  rw [if_neg (by simp), dropWhile_ws_digit d (t ++ [u]) (hd d (by simp)), hpf]
  have hwd : List.dropWhile Char.isWhitespace [u] = [u] :=
    List.dropWhile_cons_of_neg (by simp [hu5])
  have hwt : List.takeWhile (fun c => !c.isWhitespace) [u] = [u] :=
    List.takeWhile_cons_of_pos (by simp [hu5])
  simp only [hwd, hwt]
  rw [if_neg (by simp), if_neg (by simp [hu8, hu9]), if_neg (by simp [hu6, hu7])]

/-- C3 (behavior of the memory parser as implemented): a numeral with unit
`M`/`m` is accepted as MB and with `G`/`g` is scaled by 1024, any other
single-character trailing text is rejected — but a bare numeral with NO unit
suffix is also rejected, because the `%s` verb of `fmt.Sscanf("%f%s")` fails
at end of input with a non-nil error, so `parseMem "6144"` is an error even
though the source's own dead `case ""` and help text intend it to succeed. -/
theorem parseMem_behavior :
    (∀ ds : List Char, ds ≠ [] → (∀ c ∈ ds, c.isDigit = true) → parseMem ds = none) ∧
    (∀ ds u, ds ≠ [] → (∀ c ∈ ds, c.isDigit = true) → (u = 'M' ∨ u = 'm') →
      parseMem (ds ++ [u]) = some (digitsToNat ds : ℚ)) ∧
    (∀ ds u, ds ≠ [] → (∀ c ∈ ds, c.isDigit = true) → (u = 'G' ∨ u = 'g') →
      parseMem (ds ++ [u]) = some ((digitsToNat ds : ℚ) * 1024)) ∧
    (∀ ds u, ds ≠ [] → (∀ c ∈ ds, c.isDigit = true) →
      u.isDigit = false → u ≠ '.' → u ≠ 'e' → u ≠ 'E' → u.isWhitespace = false →
      u ≠ 'M' → u ≠ 'm' → u ≠ 'G' → u ≠ 'g' → parseMem (ds ++ [u]) = none) ∧
    parseMem "6144".toList = none ∧
    parseMem "".toList = none :=
  ⟨parseMem_bare_digits, parseMem_M, parseMem_G, parseMem_junk, by decide, by decide⟩

/-- Witness for C3: the behavior theorem applied at the concrete inputs
`"81"` (bare numeral, rejected) and `"81g"` (accepted, scaled by 1024). -/
theorem parseMem_behavior_witness :
    parseMem "81".toList = none ∧
    parseMem ("81".toList ++ ['g']) = some ((digitsToNat "81".toList : ℚ) * 1024) :=
  ⟨parseMem_behavior.1 "81".toList (by decide) (by decide),
   parseMem_behavior.2.2.1 "81".toList 'g' (by decide) (by decide) (Or.inr rfl)⟩

/-! ### Exactness of the bump-memory float chain -/

lemma sAux_le : ∀ f k e : ℕ, k < 2 ^ 53 → k * 2 ^ e ≤ f → sAux f (k * 2 ^ e) ≤ e := by
  intro f
  induction f with
  | zero =>
    intro k e hk hf
    simp [sAux]
  | succ f ih =>
    intro k e hk hf
    simp only [sAux]
    split_ifs with hlt
    · exact Nat.zero_le e
    · have hk1 : 1 ≤ k := by
        rcases Nat.eq_zero_or_pos k with rfl | h
        · simp at hlt
        · exact h
      cases e with
      | zero =>
        simp only [pow_zero, Nat.mul_one] at hlt
        exact absurd hk hlt
      | succ e =>
        have hdiv : k * 2 ^ (e + 1) / 2 = k * 2 ^ e := by
          rw [pow_succ, ← Nat.mul_assoc, Nat.mul_div_cancel _ (by norm_num)]
        rw [hdiv]
        have hpos : 0 < k * 2 ^ e := Nat.mul_pos (by omega) (pow_pos (by norm_num) e)
        have h2 : k * 2 ^ e * 2 ≤ f + 1 := by
          have he : k * 2 ^ e * 2 = k * 2 ^ (e + 1) := by ring
          rw [he]
          exact hf
        have hle : k * 2 ^ e ≤ f := by
          set X := k * 2 ^ e
          omega
        exact Nat.succ_le_succ (ih k e hk hle)

lemma shiftAmt_le {k e : ℕ} (hk : k < 2 ^ 53) : shiftAmt (k * 2 ^ e) ≤ e :=
  sAux_le (k * 2 ^ e) k e hk le_rfl

lemma shiftAmt_eq_zero {n : ℕ} (h : n < 2 ^ 53) : shiftAmt n = 0 := by
  unfold shiftAmt
  cases n with
  | zero => rfl
  | succ m =>
    simp only [sAux]
    rw [if_pos h]

lemma roundM_small {n : ℕ} (h : n < 2 ^ 53) : roundM n = (n, 0) := by
  simp [roundM, shiftAmt_eq_zero h]

/-- Whenever the trailing zeros of `n` absorb the mantissa overflow (`n` is a
small mantissa times a power of two), binary64 rounding of `n` is exact. -/
lemma roundM_exact (k e : ℕ) (hk : k < 2 ^ 53) :
    (roundM (k * 2 ^ e)).1 * 2 ^ (roundM (k * 2 ^ e)).2 = k * 2 ^ e := by
  by_cases h0 : shiftAmt (k * 2 ^ e) = 0
  · simp [roundM, h0]
  · have hs : shiftAmt (k * 2 ^ e) ≤ e := shiftAmt_le hk
    have hdvd : 2 ^ shiftAmt (k * 2 ^ e) ∣ k * 2 ^ e :=
      dvd_mul_of_dvd_right (pow_dvd_pow 2 hs) k
    have hr : k * 2 ^ e % 2 ^ shiftAmt (k * 2 ^ e) = 0 :=
      Nat.mod_eq_zero_of_dvd hdvd
    have hpos : 0 < 2 ^ (shiftAmt (k * 2 ^ e) - 1) := pow_pos (by norm_num) _
    simp only [roundM]
    rw [if_neg h0, hr]
    have hcond : ¬(2 ^ (shiftAmt (k * 2 ^ e) - 1) < 0 ∨
        (0 = 2 ^ (shiftAmt (k * 2 ^ e) - 1) ∧
          k * 2 ^ e / 2 ^ shiftAmt (k * 2 ^ e) % 2 = 1)) := by
      rintro (hc | ⟨hc, -⟩)
      · exact absurd hc (by omega)
      · exact absurd hc.symm (by omega)
    rw [if_neg hcond]
    exact Nat.div_mul_cancel hdvd

lemma goMul6656_eq {c : ℕ} (hc : c ≤ 2 ^ 49) : goMul6656 c = 6656 * c := by
  have hc53 : c < 2 ^ 53 := lt_of_le_of_lt hc (by norm_num)
  have h13 : 13 * c < 2 ^ 53 := by
    calc 13 * c ≤ 13 * 2 ^ 49 := Nat.mul_le_mul_left 13 hc
    _ < 2 ^ 53 := by norm_num
  simp only [goMul6656, roundM_small hc53, roundM_small h13]
  ring

/-- C7: the bump-memory operation of `main` holds the vCPU count fixed,
computes `max_ram` as the 6.5 GB/vCPU product truncated, rounded down to a
multiple of 256 and floored at 3840, and classifies the relation to the
current memory as AlreadyMax (equal), AlreadyExceedsMax (already above) or
Bumped (below); concretely, tier `(4, 3840)` bumps to 26624.  The vCPU bound
`c ≤ 2 ^ 49` keeps the source's float64 chain exact (and its `int64` within
range); beyond it the conversion is not defined by the Go specification. -/
theorem bumpMemoryToMax_spec :
    (∀ c r : ℕ, c ≤ 2 ^ 49 →
      (bumpMemoryToMax c r).1 = max 3840 ((6656 * c / 256) * 256) ∧
      (bumpMemoryToMax c r).2 =
        (if max 3840 ((6656 * c / 256) * 256) = r then BumpRel.AlreadyMax
         else if max 3840 ((6656 * c / 256) * 256) < r then BumpRel.AlreadyExceedsMax
         else BumpRel.Bumped)) ∧
    bumpMemoryToMax 4 3840 = (26624, BumpRel.Bumped) := by
  refine ⟨?_, by decide⟩
  intro c r hc
  have h13 : 13 * c < 2 ^ 53 := by
    calc 13 * c ≤ 13 * 2 ^ 49 := Nat.mul_le_mul_left 13 hc
    _ < 2 ^ 53 := by norm_num
  have hg : goMul6656 c = 6656 * c := goMul6656_eq hc
  have hb : 6656 * c / 256 * 256 = 6656 * c := by
    have h1 : 6656 * c = 256 * (26 * c) := by ring
    rw [h1, Nat.mul_div_cancel_left _ (by norm_num)]
    ring
  have hv : valM (6656 * c) = 6656 * c := by
    have h1 : 6656 * c = (13 * c) * 2 ^ 9 := by ring
    unfold valM
    rw [h1]
    exact roundM_exact (13 * c) 9 h13
  have hmax : (if 6656 * c < 3840 then 3840 else 6656 * c) =
      max 3840 (6656 * c / 256 * 256) := by
    rw [hb]
    split_ifs <;> omega
  simp only [bumpMemoryToMax, hg, hb, hv, hmax]
  exact ⟨trivial, trivial⟩

/-- Witness for C7: the classification theorem applied at the concrete tier
`(4, 3840)` from the spec's worked example. -/
theorem bumpMemoryToMax_spec_witness :
    (bumpMemoryToMax 4 3840).1 = max 3840 ((6656 * 4 / 256) * 256) ∧
    (bumpMemoryToMax 4 3840).2 =
      (if max 3840 ((6656 * 4 / 256) * 256) = 3840 then BumpRel.AlreadyMax
       else if max 3840 ((6656 * 4 / 256) * 256) < 3840 then BumpRel.AlreadyExceedsMax
       else BumpRel.Bumped) :=
  bumpMemoryToMax_spec.1 4 3840 (by norm_num)

end GoCalc
